import Mathlib

/-!
Verification of the `rcir` crate's ranked-choice instant-runoff tabulation.

The single entry point of the crate is `find_winners` (src/rcir/src/lib.rs).
We embed it shallowly:

* The Rust `HashMap<C, Vec<B::IntoIter>>` becomes an association list
  `VMap C = List (C × List (List C))`: each active candidate paired with the
  list of voter records (ballot suffixes) currently assigned to it.  Keys are
  kept in first-insertion order; since a `HashMap` iterates in an arbitrary
  order, order-insensitivity of the winner set is proved separately
  (`find_winners_perm`).
* A voter record (`B::IntoIter`, a partially consumed ballot iterator)
  becomes the list of candidates not yet consumed.
* The `loop` becomes a fuel-indexed recursion `findWinnersAux`; the top-level
  call supplies fuel `(number of map entries) + 1`, and fuel sufficiency /
  irrelevance is proved (`findWinnersAux_fuel_irrel`), mirroring the
  termination argument of the Rust loop.
* Panic sites (`unreachable!`, `expect`, `debug_assert!`) and fuel exhaustion
  return `none`; totality (`find_winners ≠ none`) is proved separately.
-/

namespace RCIR

variable {C : Type} [DecidableEq C]

/-- The candidate → remaining-voters map (`voter_map` in the source), as an
association list in insertion order. -/
abbrev VMap (C : Type) : Type := List (C × List (List C))

/-- `voter_map.get(&t).is_some()`: is `t` an active candidate? -/
def hasKey (m : VMap C) (t : C) : Bool :=
  m.any fun p => decide (p.1 = t)

/-- `voter_map.get_mut(&t) → voters.push(r)`: append voter record `r` to the
entry of candidate `t` (no-op on entries with other keys). -/
def pushVoter (m : VMap C) (t : C) (r : List C) : VMap C :=
  m.map fun p => if p.1 = t then (p.1, p.2 ++ [r]) else p

/-- `voter_map.entry(c).or_default().push(rest)`: push onto an existing
entry, or create a fresh entry at the end. -/
def addVoter (m : VMap C) (c : C) (rest : List C) : VMap C :=
  if hasKey m c then pushVoter m c rest else m ++ [(c, [rest])]

/-- The initialization loop of `find_winners`: each non-empty ballot is split
into its first choice and its remainder, which is enqueued for that choice;
empty ballots never enter the map. -/
def initMap (ballots : List (List C)) : VMap C :=
  ballots.foldl
    (fun m b =>
      match b with
      | [] => m
      | c :: rest => addVoter m c rest)
    []

/-- The inner `while let Some(target) = ballot.next()` loop: advance one voter
record past inactive candidates and append it to the first active candidate
found, dropping it if the ballot is exhausted first. -/
def redistribute (m : VMap C) : List C → VMap C
  | [] => m
  | t :: rest => if hasKey m t then pushVoter m t rest else redistribute m rest

/-- `for mut ballot in voters { ... }`: redistribute each voter record of one
eliminated candidate in order. -/
def redistributeAll (m : VMap C) (voters : List (List C)) : VMap C :=
  voters.foldl redistribute m

/-- The source's `hash_map_drain_filter`: split the map into the retained
entries (first component, the mutated map) and the drained entries (second
component, the returned `Vec`). -/
def hash_map_drain_filter (m : VMap C) (shouldDrain : C × List (List C) → Bool) :
    VMap C × List (C × List (List C)) :=
  (m.filter fun e => !(shouldDrain e), m.filter shouldDrain)

/-- `voter_map.values().map(|voters| voters.len())`. -/
def votecounts (m : VMap C) : List Nat :=
  m.map fun p => p.2.length

/-- One elimination round: drain every candidate whose count equals
`worst_votecount`, then redistribute all of their voter records (the
`for (_candidate, voters) in worst_candidates` loop). -/
def eliminateWorst (m : VMap C) (worst : Nat) : VMap C :=
  let pr := hash_map_drain_filter m fun p => decide (p.2.length = worst)
  pr.2.foldl (fun acc p => redistributeAll acc p.2) pr.1

/-- The `loop` of `find_winners`, with explicit fuel.  `none` models every
panic site (the `unreachable!` when `max`/`min` disagree on `Some`-ness, the
`expect`/`debug_assert!` in the majority branch) as well as fuel exhaustion,
which is proved impossible for the fuel supplied by `find_winners`. -/
def findWinnersAux : Nat → VMap C → Option (List C)
  | 0, _ => none
  | fuel + 1, m =>
    match (votecounts m).max?, (votecounts m).min? with
    | some best, some worst =>
      if (votecounts m).sum / 2 < best then
        match m.filter fun p => decide (p.2.length = best) with
        | [p] => some [p.1]
        | _ => none
      else if best = worst then
        some (m.map Prod.fst)
      else
        findWinnersAux fuel (eliminateWorst m worst)
    | none, none => some []
    | _, _ => none

/-- `pub fn find_winners`: build the map, then run the round loop.  The fuel
`length + 1` is enough because every elimination round strictly shrinks the
map (`eliminateWorst_length_lt`). -/
def find_winners (ballots : List (List C)) : Option (List C) :=
  findWinnersAux ((initMap ballots).length + 1) (initMap ballots)

/-- Number of elimination rounds the loop performs before returning, with the
same fuel discipline as `findWinnersAux`. -/
def elimRounds : Nat → VMap C → Nat
  | 0, _ => 0
  | fuel + 1, m =>
    match (votecounts m).max?, (votecounts m).min? with
    | some best, some worst =>
      if (votecounts m).sum / 2 < best then 0
      else if best = worst then 0
      else elimRounds fuel (eliminateWorst m worst) + 1
    | _, _ => 0

/-- The voter map of the round in which the loop returns: the same recursion
as `findWinnersAux`, but yielding the map that the terminating round (any
return branch) inspects instead of the returned winner list. -/
def finalMap : Nat → VMap C → VMap C
  | 0, m => m
  | fuel + 1, m =>
    match (votecounts m).max?, (votecounts m).min? with
    | some best, some worst =>
      if (votecounts m).sum / 2 < best then m
      else if best = worst then m
      else finalMap fuel (eliminateWorst m worst)
    | _, _ => m

/-- Specification helper for the inner `while let` loop: the first candidate
on ballot `b` that appears among `keys`, together with the ballot suffix after
it; `none` when the ballot exhausts first. -/
def nextActive (keys : List C) : List C → Option (C × List C)
  | [] => none
  | t :: rest => if t ∈ keys then some (t, rest) else nextActive keys rest

/-- Specification helper: the voter record that ballot `b` contributes to
candidate `k` during redistribution, if any. -/
def landedAt (keys : List C) (k : C) (b : List C) : Option (List C) :=
  match nextActive keys b with
  | some (t, r) => if t = k then some r else none
  | none => none

/-- The body of the initialization loop, as a named step function. -/
def initStep (m : VMap C) (b : List C) : VMap C :=
  match b with
  | [] => m
  | c :: rest => addVoter m c rest

/-- View a map entry with its voter list taken up to reordering. -/
def entryMS (p : C × List (List C)) : C × Multiset (List C) :=
  (p.1, (p.2 : Multiset (List C)))

/-- Two voter maps are equivalent when they hold the same entries up to
reordering of entries and of each entry's voter list.  This is exactly the
information a `HashMap` of `Vec`s determines when ballots arrive in a
different order. -/
def MapEquiv (m₁ m₂ : VMap C) : Prop :=
  (m₁.map entryMS).Perm (m₂.map entryMS)

/-- Results agree up to reordering of the winner list. -/
def optionPerm (o₁ o₂ : Option (List C)) : Prop :=
  match o₁, o₂ with
  | some l₁, some l₂ => l₁.Perm l₂
  | none, none => True
  | _, _ => False

/-! ### Basic bookkeeping lemmas -/

theorem hasKey_iff (m : VMap C) (t : C) :
    hasKey m t = true ↔ t ∈ m.map Prod.fst := by
  simp [hasKey, List.any_eq_true, List.mem_map]

theorem pushVoter_keys (m : VMap C) (t : C) (r : List C) :
    (pushVoter m t r).map Prod.fst = m.map Prod.fst := by
  simp [pushVoter, List.map_map, Function.comp_def, apply_ite Prod.fst]

theorem pushVoter_length (m : VMap C) (t : C) (r : List C) :
    (pushVoter m t r).length = m.length := by
  simp [pushVoter]

theorem redistribute_keys (m : VMap C) (b : List C) :
    (redistribute m b).map Prod.fst = m.map Prod.fst := by
  induction b with
  | nil => rfl
  | cons t rest ih =>
    rw [redistribute]
    by_cases h : hasKey m t
    · simp [h, pushVoter_keys]
    · simp [h, ih]

theorem redistribute_length (m : VMap C) (b : List C) :
    (redistribute m b).length = m.length := by
  induction b with
  | nil => rfl
  | cons t rest ih =>
    rw [redistribute]
    by_cases h : hasKey m t
    · simp [h, pushVoter_length]
    · simp [h, ih]

theorem redistributeAll_keys (bs : List (List C)) (m : VMap C) :
    (redistributeAll m bs).map Prod.fst = m.map Prod.fst := by
  induction bs generalizing m with
  | nil => rfl
  | cons b bs ih =>
    show (redistributeAll (redistribute m b) bs).map Prod.fst = _
    rw [ih, redistribute_keys]

theorem redistributeAll_length (bs : List (List C)) (m : VMap C) :
    (redistributeAll m bs).length = m.length := by
  induction bs generalizing m with
  | nil => rfl
  | cons b bs ih =>
    show (redistributeAll (redistribute m b) bs).length = _
    rw [ih, redistribute_length]

theorem foldl_redistributeAll_keys (l : List (C × List (List C))) (m : VMap C) :
    (l.foldl (fun acc p => redistributeAll acc p.2) m).map Prod.fst = m.map Prod.fst := by
  induction l generalizing m with
  | nil => rfl
  | cons q l ih =>
    show ((l.foldl _ (redistributeAll m q.2)).map Prod.fst) = _
    rw [ih, redistributeAll_keys]

theorem foldl_redistributeAll_length (l : List (C × List (List C))) (m : VMap C) :
    (l.foldl (fun acc p => redistributeAll acc p.2) m).length = m.length := by
  induction l generalizing m with
  | nil => rfl
  | cons q l ih =>
    show ((l.foldl _ (redistributeAll m q.2)).length) = _
    rw [ih, redistributeAll_length]

theorem eliminateWorst_keys (m : VMap C) (w : Nat) :
    (eliminateWorst m w).map Prod.fst
      = (m.filter fun p => !(decide (p.2.length = w))).map Prod.fst := by
  simp only [eliminateWorst, hash_map_drain_filter]
  exact foldl_redistributeAll_keys _ _

theorem eliminateWorst_length (m : VMap C) (w : Nat) :
    (eliminateWorst m w).length
      = (m.filter fun p => !(decide (p.2.length = w))).length := by
  simp only [eliminateWorst, hash_map_drain_filter]
  exact foldl_redistributeAll_length _ _

theorem mem_of_min?_votecounts {m : VMap C} {w : Nat}
    (h : (votecounts m).min? = some w) : ∃ p ∈ m, p.2.length = w := by
  have hw : w ∈ votecounts m := (List.min?_eq_some_iff'.1 h).1
  simpa [votecounts, List.mem_map] using hw

theorem eliminateWorst_length_lt {m : VMap C} {w : Nat}
    (h : (votecounts m).min? = some w) :
    (eliminateWorst m w).length < m.length := by
  rw [eliminateWorst_length]
  obtain ⟨p, hp, hlen⟩ := mem_of_min?_votecounts h
  exact List.length_filter_lt_length_iff_exists.2 ⟨p, hp, by simp [hlen]⟩

/-! ### Fuel irrelevance: the loop terminates within `m.length + 1` rounds -/

theorem findWinnersAux_fuel_irrel :
    ∀ (f₁ : Nat) (f₂ : Nat) (m : VMap C), m.length < f₁ → m.length < f₂ →
      findWinnersAux f₁ m = findWinnersAux f₂ m := by
  intro f₁
  induction f₁ with
  | zero => intro f₂ m h₁ _; omega
  | succ f₁ ih =>
    intro f₂ m h₁ h₂
    match f₂, h₂ with
    | f₂ + 1, h₂ =>
      rw [findWinnersAux, findWinnersAux]
      cases hmax : (votecounts m).max? with
      | none => cases hmin : (votecounts m).min? <;> rfl
      | some best =>
        cases hmin : (votecounts m).min? with
        | none => rfl
        | some worst =>
          by_cases hmaj : (votecounts m).sum / 2 < best
          · simp [hmaj]
          · by_cases htie : best = worst
            · simp [hmaj, htie]
            · simp only [hmaj, htie, if_false, if_neg]
              have hlt := eliminateWorst_length_lt (m := m) (w := worst) hmin
              exact ih f₂ (eliminateWorst m worst) (by omega) (by omega)

/-! ### The majority branch reaches no panic site -/

theorem sum_of_all_eq (l : List Nat) (b : Nat) (h : ∀ n ∈ l, n = b) :
    l.sum = l.length * b := by
  induction l with
  | nil => simp
  | cons n l ih =>
    have hn : n = b := h n (List.mem_cons_self n l)
    have := ih fun x hx => h x (List.mem_cons_of_mem n hx)
    simp [hn, this, Nat.succ_mul, Nat.add_comm]

theorem majority_filter_unique {m : VMap C} {b : Nat}
    (hmax : (votecounts m).max? = some b)
    (hmaj : (votecounts m).sum / 2 < b) :
    ∃ p, m.filter (fun p => decide (p.2.length = b)) = [p] := by
  have hmem : b ∈ votecounts m := (List.max?_eq_some_iff'.1 hmax).1
  obtain ⟨p, hp, hpb⟩ : ∃ p ∈ m, p.2.length = b := by
    simpa [votecounts, List.mem_map] using hmem
  have hcounts :
      (votecounts m).filter (fun n => decide (n = b))
        = (m.filter fun p => decide (p.2.length = b)).map fun p => p.2.length := by
    simpa [votecounts, Function.comp_def] using
      List.filter_map (p := fun n => decide (n = b))
        (fun p : C × List (List C) => p.2.length) m
  have hpos : 1 ≤ (m.filter fun p => decide (p.2.length = b)).length := by
    have : p ∈ m.filter fun p => decide (p.2.length = b) :=
      List.mem_filter.2 ⟨hp, by simp [hpb]⟩
    exact List.length_pos.2 fun hnil => by rw [hnil] at this; exact absurd this (by simp)
  have hle1 : (m.filter fun p => decide (p.2.length = b)).length ≤ 1 := by
    by_contra hgt
    push_neg at hgt
    have hall : ∀ n ∈ (votecounts m).filter (fun n => decide (n = b)), n = b := by
      intro n hn
      simpa using (List.mem_filter.1 hn).2
    have hsum : ((votecounts m).filter (fun n => decide (n = b))).sum
        = ((votecounts m).filter (fun n => decide (n = b))).length * b :=
      sum_of_all_eq _ _ hall
    have hflen : ((votecounts m).filter (fun n => decide (n = b))).length
        = (m.filter fun p => decide (p.2.length = b)).length := by
      rw [hcounts, List.length_map]
    have hsum_le : ((votecounts m).filter (fun n => decide (n = b))).sum
        ≤ (votecounts m).sum :=
      (List.filter_sublist _).sum_le_sum fun a _ => Nat.zero_le a
    have htot : (votecounts m).sum < b * 2 :=
      (Nat.div_lt_iff_lt_mul (by omega)).1 hmaj
    rw [hsum, hflen] at hsum_le
    have h2 : 2 ≤ (m.filter fun p => decide (p.2.length = b)).length := hgt
    nlinarith
  obtain ⟨q, hq⟩ := List.length_eq_one.1 (Nat.le_antisymm hle1 hpos)
  exact ⟨q, hq⟩

theorem findWinnersAux_isSome :
    ∀ (fuel : Nat) (m : VMap C), m.length < fuel →
      (findWinnersAux fuel m).isSome = true := by
  intro fuel
  induction fuel with
  | zero => intro m h; omega
  | succ fuel ih =>
    intro m h
    rw [findWinnersAux]
    cases hmax : (votecounts m).max? with
    | none =>
      cases hmin : (votecounts m).min? with
      | none => rfl
      | some w =>
        exfalso
        have hnil : votecounts m = [] := List.max?_eq_none_iff.1 hmax
        rw [hnil] at hmin
        simp at hmin
    | some b =>
      cases hmin : (votecounts m).min? with
      | none =>
        exfalso
        have hnil : votecounts m = [] := List.min?_eq_none_iff.1 hmin
        rw [hnil] at hmax
        simp at hmax
      | some w =>
        by_cases hmaj : (votecounts m).sum / 2 < b
        · obtain ⟨p, hp⟩ := majority_filter_unique hmax hmaj
          simp [hmaj, hp]
        · by_cases htie : b = w
          · subst htie
            simp [hmaj]
          · simp only [if_neg hmaj, if_neg htie]
            have hlt := eliminateWorst_length_lt (m := m) (w := w) hmin
            exact ih (eliminateWorst m w) (by omega)

theorem elimRounds_le :
    ∀ (fuel : Nat) (m : VMap C), m.length < fuel → elimRounds fuel m ≤ m.length := by
  intro fuel
  induction fuel with
  | zero => intro m h; omega
  | succ fuel ih =>
    intro m h
    rw [elimRounds]
    cases hmax : (votecounts m).max? with
    | none => cases hmin : (votecounts m).min? <;> simp
    | some b =>
      cases hmin : (votecounts m).min? with
      | none => simp
      | some w =>
        by_cases hmaj : (votecounts m).sum / 2 < b
        · simp [hmaj]
        · by_cases htie : b = w
          · simp [hmaj, htie]
          · simp only [if_neg hmaj, if_neg htie]
            have hlt := eliminateWorst_length_lt (m := m) (w := w) hmin
            have := ih (eliminateWorst m w) (by omega)
            omega

theorem initMap_all_nil_aux :
    ∀ (bs : List (List C)) (m : VMap C), (∀ b ∈ bs, b = []) →
      bs.foldl
        (fun m b =>
          match b with
          | [] => m
          | c :: rest => addVoter m c rest)
        m = m := by
  intro bs
  induction bs with
  | nil => intro m _; rfl
  | cons b bs ih =>
    intro m h
    have hb : b = [] := h b (List.mem_cons_self b bs)
    subst hb
    exact ih m fun x hx => h x (List.mem_cons_of_mem _ hx)

theorem initMap_all_nil (bs : List (List C)) (h : ∀ b ∈ bs, b = []) :
    initMap bs = [] :=
  initMap_all_nil_aux bs [] h

/-! ### Claim theorems (first group) -/

/-- C4: `find_winners` is total: for every finite collection of finite
ballots no panic site is reached — the `max`/`min` mismatch branch is
unreachable, the majority branch always finds exactly one candidate with the
best count, and `m.length + 1` fuel never runs out.  (The Rust precondition
that the ballot count fit in `usize` is vacuous over `Nat`.) -/
theorem find_winners_total (ballots : List (List C)) :
    (find_winners ballots).isSome = true :=
  findWinnersAux_isSome _ _ (Nat.lt_succ_self _)

/-- C3: every elimination round drains a non-empty set of worst candidates
and strictly shrinks the map, and the loop finishes within the initial
candidate count: any fuel above `(initMap ballots).length` yields the result
of `find_winners`, and the number of elimination rounds is at most the number
of first-round candidates. -/
theorem find_winners_terminates :
    (∀ (m : VMap C) (w : Nat), (votecounts m).min? = some w →
        (hash_map_drain_filter m fun p => decide (p.2.length = w)).2 ≠ [] ∧
        (eliminateWorst m w).length < m.length) ∧
    (∀ (fuel : Nat) (m : VMap C), m.length < fuel → elimRounds fuel m ≤ m.length) ∧
    (∀ (fuel : Nat) (ballots : List (List C)), (initMap ballots).length < fuel →
        findWinnersAux fuel (initMap ballots) = find_winners ballots) := by
  refine ⟨fun m w hmin => ⟨?_, eliminateWorst_length_lt hmin⟩, elimRounds_le, ?_⟩
  · obtain ⟨p, hp, hlen⟩ := mem_of_min?_votecounts hmin
    have : p ∈ m.filter fun p => decide (p.2.length = w) :=
      List.mem_filter.2 ⟨hp, by simp [hlen]⟩
    exact List.ne_nil_of_mem this
  · intro fuel ballots h
    exact findWinnersAux_fuel_irrel fuel _ _ h (Nat.lt_succ_self _)

theorem find_winners_terminates_witness :
    (votecounts (initMap ([[0], [0], [1]] : List (List Nat)))).min? = some 1 ∧
    (initMap ([[0], [0], [1]] : List (List Nat))).length < 3 ∧
    ((hash_map_drain_filter (initMap ([[0], [0], [1]] : List (List Nat)))
        fun p => decide (p.2.length = 1)).2 ≠ [] ∧
      (eliminateWorst (initMap ([[0], [0], [1]] : List (List Nat))) 1).length
        < (initMap ([[0], [0], [1]] : List (List Nat))).length) ∧
    elimRounds 3 (initMap ([[0], [0], [1]] : List (List Nat)))
      ≤ (initMap ([[0], [0], [1]] : List (List Nat))).length ∧
    findWinnersAux 5 (initMap ([[0], [0], [1]] : List (List Nat)))
      = find_winners [[0], [0], [1]] :=
  ⟨by decide, by decide,
    find_winners_terminates.1 _ 1 (by decide),
    find_winners_terminates.2.1 3 _ (by decide),
    find_winners_terminates.2.2 5 _ (by decide)⟩

/-- C9: the empty ballot collection, and any collection consisting solely of
empty ballots (which never enter the map), produce `some []`. -/
theorem find_winners_degenerate :
    (find_winners ([] : List (List C)) = some []) ∧
    (∀ bs : List (List C), (∀ b ∈ bs, b = []) → find_winners bs = some []) := by
  constructor
  · rfl
  · intro bs h
    show findWinnersAux _ _ = some []
    rw [initMap_all_nil bs h]
    rfl

theorem find_winners_degenerate_witness :
    (∀ b ∈ ([[], []] : List (List Nat)), b = []) ∧
    find_winners ([[], []] : List (List Nat)) = some [] :=
  ⟨by decide, find_winners_degenerate.2 _ (by decide)⟩

theorem length_mem_votecounts {m : VMap C} {q : C × List (List C)} (hq : q ∈ m) :
    q.2.length ∈ votecounts m :=
  List.mem_map_of_mem _ hq

theorem full_tie_general (fuel : Nat) (m : VMap C) (b w : Nat)
    (hmax : (votecounts m).max? = some b) (hmin : (votecounts m).min? = some w)
    (htie : b = w) : findWinnersAux (fuel + 1) m = some (m.map Prod.fst) := by
  subst htie
  rw [findWinnersAux, hmax, hmin]
  by_cases hmaj : (votecounts m).sum / 2 < b
  · obtain ⟨p, hp⟩ := majority_filter_unique hmax hmaj
    have hall : ∀ q ∈ m, q.2.length = b := by
      intro q hq
      have h1 := (List.max?_eq_some_iff'.1 hmax).2 _ (length_mem_votecounts hq)
      have h2 := (List.min?_eq_some_iff'.1 hmin).2 _ (length_mem_votecounts hq)
      omega
    have hfe : m.filter (fun r => decide (r.2.length = b)) = m :=
      List.filter_eq_self.2 fun q hq => by simp [hall q hq]
    rw [hfe] at hp
    subst hp
    simp [hmaj, hfe]
  · simp [hmaj]

theorem continue_round (fuel : Nat) (m : VMap C) (b w : Nat)
    (hmax : (votecounts m).max? = some b) (hmin : (votecounts m).min? = some w)
    (hmaj : ¬((votecounts m).sum / 2 < b)) (htie : b ≠ w) :
    findWinnersAux (fuel + 1) m = findWinnersAux fuel (eliminateWorst m w) := by
  rw [findWinnersAux, hmax, hmin]
  simp [hmaj, htie]

theorem minmax_align {m : VMap C} {b : Nat}
    (hmax : (votecounts m).max? = some b) :
    ∃ w, (votecounts m).min? = some w := by
  cases hmin : (votecounts m).min? with
  | none =>
    exfalso
    have hnil := List.min?_eq_none_iff.1 hmin
    rw [hnil] at hmax
    simp at hmax
  | some w => exact ⟨w, rfl⟩

theorem max_of_min {m : VMap C} {b : Nat}
    (hmin : (votecounts m).min? = none) : (votecounts m).max? = none := by
  have hnil := List.min?_eq_none_iff.1 hmin
  rw [hnil]
  rfl

theorem empty_round (fuel : Nat) (m : VMap C)
    (hmax : (votecounts m).max? = none) :
    findWinnersAux (fuel + 1) m = some [] := by
  have hmin : (votecounts m).min? = none := by
    have hnil := List.max?_eq_none_iff.1 hmax
    rw [hnil]
    rfl
  rw [findWinnersAux, hmax, hmin]

theorem majority_round (fuel : Nat) (m : VMap C) (b w : Nat)
    (hmax : (votecounts m).max? = some b) (hmin : (votecounts m).min? = some w)
    (hmaj : (votecounts m).sum / 2 < b) :
    ∃ p, m.filter (fun r => decide (r.2.length = b)) = [p] ∧
      findWinnersAux (fuel + 1) m = some [p.1] := by
  obtain ⟨p, hp⟩ := majority_filter_unique hmax hmaj
  refine ⟨p, hp, ?_⟩
  rw [findWinnersAux, hmax, hmin]
  simp [hmaj, hp]

theorem finalMap_of_tie (fuel : Nat) (m : VMap C) (b w : Nat)
    (hmax : (votecounts m).max? = some b) (hmin : (votecounts m).min? = some w)
    (htie : b = w) : finalMap (fuel + 1) m = m := by
  subst htie
  rw [finalMap, hmax, hmin]
  by_cases hmaj : (votecounts m).sum / 2 < b <;> simp [hmaj]

theorem finalMap_continue (fuel : Nat) (m : VMap C) (b w : Nat)
    (hmax : (votecounts m).max? = some b) (hmin : (votecounts m).min? = some w)
    (hmaj : ¬((votecounts m).sum / 2 < b)) (htie : b ≠ w) :
    finalMap (fuel + 1) m = finalMap fuel (eliminateWorst m w) := by
  rw [finalMap, hmax, hmin]
  simp [hmaj, htie]

theorem findWinnersAux_shape :
    ∀ (fuel : Nat) (m : VMap C) (l : List C), findWinnersAux fuel m = some l →
      l = [] ∨ (∃ c, l = [c]) ∨
        (2 ≤ l.length ∧ l = (finalMap fuel m).map Prod.fst ∧
          ∃ v : Nat, ∀ p ∈ finalMap fuel m, p.2.length = v) := by
  intro fuel
  induction fuel with
  | zero => intro m l h; simp [findWinnersAux] at h
  | succ fuel ih =>
    intro m l h
    cases hmax : (votecounts m).max? with
    | none =>
      rw [empty_round fuel m hmax] at h
      simp at h
      exact Or.inl h
    | some b =>
      obtain ⟨w, hmin⟩ := minmax_align hmax
      by_cases hmaj : (votecounts m).sum / 2 < b
      · obtain ⟨p, _, heq⟩ := majority_round fuel m b w hmax hmin hmaj
        rw [heq] at h
        simp at h
        exact Or.inr (Or.inl ⟨p.1, h.symm⟩)
      · by_cases htie : b = w
        · rw [full_tie_general fuel m b w hmax hmin htie] at h
          have hl : l = m.map Prod.fst := by simpa using h.symm
          have hfm : finalMap (fuel + 1) m = m :=
            finalMap_of_tie fuel m b w hmax hmin htie
          subst htie
          rcases m with _ | ⟨p, m'⟩
          · simp [votecounts] at hmax
          · rcases m' with _ | ⟨q, m''⟩
            · exact Or.inr (Or.inl ⟨p.1, by simp [hl]⟩)
            · refine Or.inr (Or.inr ⟨by rw [hl]; simp, by rw [hfm]; exact hl, b, ?_⟩)
              rw [hfm]
              intro r hr
              have h1 := (List.max?_eq_some_iff'.1 hmax).2 _ (length_mem_votecounts hr)
              have h2 := (List.min?_eq_some_iff'.1 hmin).2 _ (length_mem_votecounts hr)
              omega
        · rw [continue_round fuel m b w hmax hmin hmaj htie] at h
          rw [finalMap_continue fuel m b w hmax hmin hmaj htie]
          exact ih _ _ h

theorem findWinnersAux_winners_mem :
    ∀ (fuel : Nat) (m : VMap C) (l : List C), findWinnersAux fuel m = some l →
      ∀ c ∈ l, c ∈ m.map Prod.fst := by
  intro fuel
  induction fuel with
  | zero => intro m l h; simp [findWinnersAux] at h
  | succ fuel ih =>
    intro m l h c hc
    cases hmax : (votecounts m).max? with
    | none =>
      rw [empty_round fuel m hmax] at h
      simp at h
      rw [h] at hc
      simp at hc
    | some b =>
      obtain ⟨w, hmin⟩ := minmax_align hmax
      by_cases hmaj : (votecounts m).sum / 2 < b
      · obtain ⟨p, hF, heq⟩ := majority_round fuel m b w hmax hmin hmaj
        rw [heq] at h
        simp at h
        rw [← h] at hc
        simp at hc
        subst hc
        have hpf : p ∈ m.filter fun r => decide (r.2.length = b) := by
          rw [hF]; exact List.mem_cons_self _ _
        exact List.mem_map_of_mem _ (List.mem_of_mem_filter hpf)
      · by_cases htie : b = w
        · rw [full_tie_general fuel m b w hmax hmin htie] at h
          have hl : l = m.map Prod.fst := by simpa using h.symm
          rw [hl] at hc
          exact hc
        · rw [continue_round fuel m b w hmax hmin hmaj htie] at h
          have hmem := ih _ _ h c hc
          rw [eliminateWorst_keys] at hmem
          exact List.Sublist.mem hmem
            (List.Sublist.map Prod.fst (List.filter_sublist m))

theorem addVoter_keys_cases {m : VMap C} {c x : C} {r : List C}
    (h : x ∈ (addVoter m c r).map Prod.fst) : x ∈ m.map Prod.fst ∨ x = c := by
  rw [addVoter] at h
  by_cases hk : hasKey m c
  · rw [if_pos hk, pushVoter_keys] at h
    exact Or.inl h
  · rw [if_neg hk, List.map_append] at h
    rcases List.mem_append.1 h with h | h
    · exact Or.inl h
    · simp at h
      exact Or.inr h

theorem initMap_keys_from_heads_aux :
    ∀ (bs : List (List C)) (m : VMap C) (c : C),
      c ∈ (bs.foldl
        (fun m b =>
          match b with
          | [] => m
          | x :: rest => addVoter m x rest) m).map Prod.fst →
      c ∈ m.map Prod.fst ∨ ∃ b ∈ bs, b.head? = some c := by
  intro bs
  induction bs with
  | nil => intro m c h; exact Or.inl h
  | cons b bs ih =>
    intro m c h
    rw [List.foldl_cons] at h
    rcases b with _ | ⟨x, rest⟩
    · rcases ih m c h with h | ⟨b', hb', hh⟩
      · exact Or.inl h
      · exact Or.inr ⟨b', List.mem_cons_of_mem _ hb', hh⟩
    · rcases ih (addVoter m x rest) c h with h | ⟨b', hb', hh⟩
      · rcases addVoter_keys_cases h with h | h
        · exact Or.inl h
        · exact Or.inr ⟨x :: rest, List.mem_cons_self _ _, by simp [h]⟩
      · exact Or.inr ⟨b', List.mem_cons_of_mem _ hb', hh⟩

theorem initMap_keys_from_heads {bs : List (List C)} {c : C}
    (h : c ∈ (initMap bs).map Prod.fst) : ∃ b ∈ bs, b.head? = some c := by
  rcases initMap_keys_from_heads_aux bs [] c h with h | h
  · simp at h
  · exact h

/-! ### Characterization of redistribution -/

theorem redistribute_eq (m : VMap C) (b : List C) :
    redistribute m b =
      match nextActive (m.map Prod.fst) b with
      | some (t, r) => pushVoter m t r
      | none => m := by
  induction b with
  | nil => rfl
  | cons t rest ih =>
    rw [redistribute, nextActive]
    by_cases h : t ∈ m.map Prod.fst
    · have hk : hasKey m t = true := (hasKey_iff m t).2 h
      simp [hk, h]
    · have hk : ¬(hasKey m t = true) := fun hk => h ((hasKey_iff m t).1 hk)
      simp only [Bool.not_eq_true] at hk
      simp [hk, h, ih]

theorem nextActive_mem :
    ∀ {keys b : List C} {t : C} {r : List C},
      nextActive keys b = some (t, r) → t ∈ keys := by
  intro keys b
  induction b with
  | nil => intro t r h; simp [nextActive] at h
  | cons x rest ih =>
    intro t r h
    rw [nextActive] at h
    by_cases hx : x ∈ keys
    · rw [if_pos hx] at h
      obtain ⟨ht, -⟩ : x = t ∧ rest = r := by simpa using h
      exact ht ▸ hx
    · rw [if_neg hx] at h
      exact ih h

theorem redistributeAll_eq (bs : List (List C)) (m : VMap C) :
    redistributeAll m bs
      = m.map fun p => (p.1, p.2 ++ bs.filterMap (landedAt (m.map Prod.fst) p.1)) := by
  induction bs generalizing m with
  | nil =>
    show m = m.map fun p => (p.1, p.2 ++ List.filterMap _ [])
    simp
  | cons b bs ih =>
    show redistributeAll (redistribute m b) bs = _
    rw [ih, redistribute_keys, redistribute_eq]
    cases hna : nextActive (m.map Prod.fst) b with
    | none =>
      refine List.map_congr_left fun p _ => ?_
      simp [List.filterMap_cons, landedAt, hna]
    | some tr =>
      obtain ⟨t, r⟩ := tr
      simp only [pushVoter, List.map_map]
      refine List.map_congr_left fun p _ => ?_
      by_cases hpt : p.1 = t
      · subst hpt
        simp [Function.comp_def, List.filterMap_cons, landedAt, hna, List.append_assoc]
      · have h2 : ¬(t = p.1) := fun h => hpt h.symm
        simp [Function.comp_def, hpt, List.filterMap_cons, landedAt, hna, h2]

theorem pushVoter_not_mem {m : VMap C} {t : C} (r : List C)
    (h : t ∉ m.map Prod.fst) : pushVoter m t r = m := by
  simp only [pushVoter]
  conv_rhs => rw [← List.map_id m]
  refine List.map_congr_left fun p hp => ?_
  have hne : ¬(p.1 = t) := fun he => h (he ▸ List.mem_map_of_mem Prod.fst hp)
  simp [hne]

theorem pushVoter_sum (t : C) (r : List C) :
    ∀ (m : VMap C), t ∈ m.map Prod.fst → (m.map Prod.fst).Nodup →
      (votecounts (pushVoter m t r)).sum = (votecounts m).sum + 1 := by
  intro m
  induction m with
  | nil => intro hmem _; simp at hmem
  | cons p m ih =>
    intro hmem hnd
    rw [List.map_cons, List.nodup_cons] at hnd
    by_cases hpt : p.1 = t
    · have hrw : pushVoter (p :: m) t r = (p.1, p.2 ++ [r]) :: m := by
        simp only [pushVoter, List.map_cons, if_pos hpt]
        exact congrArg _ (pushVoter_not_mem r (hpt ▸ hnd.1))
      rw [hrw]
      simp [votecounts]
      omega
    · have hmem' : t ∈ m.map Prod.fst := by
        rcases List.mem_cons.1 hmem with h | h
        · exact absurd h.symm hpt
        · exact h
      have hrw : pushVoter (p :: m) t r = p :: pushVoter m t r := by
        rw [pushVoter, List.map_cons, if_neg hpt]
        rfl
      rw [hrw]
      have := ih hmem' hnd.2
      simp only [votecounts, List.map_cons, List.sum_cons] at this ⊢
      omega

theorem redistribute_sum (m : VMap C) (b : List C)
    (hnd : (m.map Prod.fst).Nodup) :
    (votecounts (redistribute m b)).sum
      = (votecounts m).sum
        + (if (nextActive (m.map Prod.fst) b).isSome then 1 else 0) := by
  rw [redistribute_eq]
  cases hna : nextActive (m.map Prod.fst) b with
  | none => simp
  | some tr =>
    obtain ⟨t, r⟩ := tr
    have hmem : t ∈ m.map Prod.fst := nextActive_mem hna
    simp [pushVoter_sum t r m hmem hnd]

theorem redistributeAll_sum :
    ∀ (bs : List (List C)) (m : VMap C), (m.map Prod.fst).Nodup →
      (votecounts (redistributeAll m bs)).sum
        = (votecounts m).sum
          + bs.countP fun b => (nextActive (m.map Prod.fst) b).isSome := by
  intro bs
  induction bs with
  | nil => intro m _; simp [redistributeAll]
  | cons b bs ih =>
    intro m hnd
    show (votecounts (redistributeAll (redistribute m b) bs)).sum = _
    have hk := redistribute_keys m b
    have hnd' : ((redistribute m b).map Prod.fst).Nodup := by rw [hk]; exact hnd
    rw [ih (redistribute m b) hnd', hk, redistribute_sum m b hnd, List.countP_cons]
    by_cases hb : (nextActive (m.map Prod.fst) b).isSome = true
    · simp [hb]
      omega
    · simp [hb]

theorem foldl_redistributeAll_flatten :
    ∀ (l : List (C × List (List C))) (m : VMap C),
      l.foldl (fun acc p => redistributeAll acc p.2) m
        = redistributeAll m (l.map Prod.snd).flatten := by
  intro l
  induction l with
  | nil => intro m; rfl
  | cons q l ih =>
    intro m
    show l.foldl _ (redistributeAll m q.2) = _
    rw [ih]
    show redistributeAll (redistributeAll m q.2) (l.map Prod.snd).flatten = _
    simp only [List.map_cons, List.flatten_cons]
    rw [redistributeAll, redistributeAll, redistributeAll, List.foldl_append]

theorem eliminateWorst_eq (m : VMap C) (w : Nat) :
    eliminateWorst m w
      = redistributeAll (m.filter fun p => !(decide (p.2.length = w)))
          (((m.filter fun p => decide (p.2.length = w)).map Prod.snd).flatten) := by
  simp only [eliminateWorst, hash_map_drain_filter]
  exact foldl_redistributeAll_flatten _ _

/-! ### Claim theorems (second group) -/

/-! ### Order-insensitivity machinery -/

theorem mapEquiv_refl (m : VMap C) : MapEquiv m m :=
  List.Perm.refl _

theorem mapEquiv_keys {m₁ m₂ : VMap C} (h : MapEquiv m₁ m₂) :
    (m₁.map Prod.fst).Perm (m₂.map Prod.fst) := by
  have := h.map Prod.fst
  simpa [List.map_map, entryMS, Function.comp_def] using this

theorem mapEquiv_votecounts {m₁ m₂ : VMap C} (h : MapEquiv m₁ m₂) :
    (votecounts m₁).Perm (votecounts m₂) := by
  have := h.map fun q => Multiset.card q.2
  simpa [List.map_map, entryMS, votecounts, Function.comp_def] using this

theorem mapEquiv_length {m₁ m₂ : VMap C} (h : MapEquiv m₁ m₂) :
    m₁.length = m₂.length := by
  have := h.length_eq
  simpa using this

theorem perm_max? {l₁ l₂ : List Nat} (h : l₁.Perm l₂) : l₁.max? = l₂.max? := by
  apply Option.ext
  intro b
  rw [Option.mem_def, Option.mem_def, List.max?_eq_some_iff', List.max?_eq_some_iff']
  exact ⟨fun hb => ⟨h.mem_iff.1 hb.1, fun x hx => hb.2 x (h.mem_iff.2 hx)⟩,
    fun hb => ⟨h.mem_iff.2 hb.1, fun x hx => hb.2 x (h.mem_iff.1 hx)⟩⟩

theorem perm_min? {l₁ l₂ : List Nat} (h : l₁.Perm l₂) : l₁.min? = l₂.min? := by
  apply Option.ext
  intro b
  rw [Option.mem_def, Option.mem_def, List.min?_eq_some_iff', List.min?_eq_some_iff']
  exact ⟨fun hb => ⟨h.mem_iff.1 hb.1, fun x hx => hb.2 x (h.mem_iff.2 hx)⟩,
    fun hb => ⟨h.mem_iff.2 hb.1, fun x hx => hb.2 x (h.mem_iff.1 hx)⟩⟩

theorem hasKey_eq (m : VMap C) (t : C) :
    hasKey m t = decide (t ∈ m.map Prod.fst) := by
  by_cases h : t ∈ m.map Prod.fst
  · simp [h, (hasKey_iff m t).2 h]
  · cases hk : hasKey m t
    · simp [h]
    · exact absurd ((hasKey_iff m t).1 hk) h

theorem pushVoter_entryMS (m : VMap C) (t : C) (r : List C) :
    (pushVoter m t r).map entryMS
      = (m.map entryMS).map fun q => if q.1 = t then (q.1, q.2 + {r}) else q := by
  simp only [pushVoter, List.map_map]
  refine List.map_congr_left fun p _ => ?_
  by_cases hpt : p.1 = t
  · simp [entryMS, hpt, Function.comp_def]
    rfl
  · simp [entryMS, hpt, Function.comp_def]

theorem pushVoter_mapEquiv {m₁ m₂ : VMap C} (h : MapEquiv m₁ m₂) (t : C)
    (r : List C) : MapEquiv (pushVoter m₁ t r) (pushVoter m₂ t r) := by
  show ((pushVoter m₁ t r).map entryMS).Perm _
  rw [pushVoter_entryMS, pushVoter_entryMS]
  exact h.map _

theorem nextActive_congr {k₁ k₂ : List C} (h : ∀ c, c ∈ k₁ ↔ c ∈ k₂) :
    ∀ b : List C, nextActive k₁ b = nextActive k₂ b := by
  intro b
  induction b with
  | nil => rfl
  | cons x rest ih =>
    rw [nextActive, nextActive]
    by_cases hx : x ∈ k₁
    · rw [if_pos hx, if_pos ((h x).1 hx)]
    · rw [if_neg hx, if_neg fun h2 => hx ((h x).2 h2)]
      exact ih

theorem redistribute_mapEquiv {m₁ m₂ : VMap C} (h : MapEquiv m₁ m₂)
    (b : List C) : MapEquiv (redistribute m₁ b) (redistribute m₂ b) := by
  rw [redistribute_eq, redistribute_eq]
  have hk : ∀ c, c ∈ m₁.map Prod.fst ↔ c ∈ m₂.map Prod.fst :=
    fun c => (mapEquiv_keys h).mem_iff
  rw [← nextActive_congr hk b]
  cases nextActive (m₁.map Prod.fst) b with
  | none => exact h
  | some tr => exact pushVoter_mapEquiv h tr.1 tr.2

theorem pushVoter_comm (m : VMap C) (t₁ t₂ : C) (r₁ r₂ : List C) :
    (pushVoter (pushVoter m t₁ r₁) t₂ r₂).map entryMS
      = (pushVoter (pushVoter m t₂ r₂) t₁ r₁).map entryMS := by
  simp only [pushVoter_entryMS, List.map_map]
  refine List.map_congr_left fun q _ => ?_
  by_cases h1 : q.1 = t₁ <;> by_cases h2 : q.1 = t₂
  · have h3 : t₁ = t₂ := h1.symm.trans h2
    simp [entryMS, Function.comp_def, h1, h2, h3]
    exact add_right_comm (↑q.2 : Multiset (List C)) {r₁} {r₂}
  · have h3 : ¬(t₁ = t₂) := fun he => h2 (h1.trans he)
    have h4 : ¬(t₂ = t₁) := fun he => h3 he.symm
    simp [entryMS, Function.comp_def, h1, h2, h3, h4]
  · have h3 : ¬(t₁ = t₂) := fun he => h1 (h2.trans he.symm)
    have h4 : ¬(t₂ = t₁) := fun he => h3 he.symm
    simp [entryMS, Function.comp_def, h1, h2, h3, h4]
  · simp [entryMS, Function.comp_def, h1, h2]

theorem redistribute_swap (m : VMap C) (b₁ b₂ : List C) :
    MapEquiv (redistribute (redistribute m b₁) b₂)
      (redistribute (redistribute m b₂) b₁) := by
  have E : ∀ b, redistribute m b =
      match nextActive (m.map Prod.fst) b with
      | some (t, r) => pushVoter m t r
      | none => m := redistribute_eq m
  have E' : ∀ t r b, redistribute (pushVoter m t r) b =
      match nextActive (m.map Prod.fst) b with
      | some (t', r') => pushVoter (pushVoter m t r) t' r'
      | none => pushVoter m t r := by
    intro t r b
    rw [redistribute_eq, pushVoter_keys]
  rcases h₁ : nextActive (m.map Prod.fst) b₁ with _ | ⟨t₁, r₁⟩ <;>
    rcases h₂ : nextActive (m.map Prod.fst) b₂ with _ | ⟨t₂, r₂⟩ <;>
    simp only [E, E', h₁, h₂] <;>
    first
      | exact mapEquiv_refl _
      | (show ((pushVoter (pushVoter m t₁ r₁) t₂ r₂).map entryMS).Perm
            ((pushVoter (pushVoter m t₂ r₂) t₁ r₁).map entryMS)
         rw [pushVoter_comm])

theorem redistributeAll_mapEquiv :
    ∀ (bs : List (List C)) {m₁ m₂ : VMap C}, MapEquiv m₁ m₂ →
      MapEquiv (redistributeAll m₁ bs) (redistributeAll m₂ bs) := by
  intro bs
  induction bs with
  | nil => intro m₁ m₂ h; exact h
  | cons b bs ih => intro m₁ m₂ h; exact ih (redistribute_mapEquiv h b)

theorem redistributeAll_perm_ballots {bs₁ bs₂ : List (List C)}
    (h : bs₁.Perm bs₂) :
    ∀ m : VMap C, MapEquiv (redistributeAll m bs₁) (redistributeAll m bs₂) := by
  induction h with
  | nil => intro m; exact mapEquiv_refl _
  | cons b hbs ih => intro m; exact ih (redistribute m b)
  | swap b₁ b₂ l => intro m; exact redistributeAll_mapEquiv l (redistribute_swap m _ _)
  | trans h₁ h₂ ih₁ ih₂ => intro m; exact List.Perm.trans (ih₁ m) (ih₂ m)

theorem redistributeAll_congr {m₁ m₂ : VMap C} {bs₁ bs₂ : List (List C)}
    (hm : MapEquiv m₁ m₂) (hb : bs₁.Perm bs₂) :
    MapEquiv (redistributeAll m₁ bs₁) (redistributeAll m₂ bs₂) :=
  List.Perm.trans (redistributeAll_mapEquiv bs₁ hm) (redistributeAll_perm_ballots hb m₂)

theorem filter_worst_entryMS (m : VMap C) (w : Nat) :
    (m.filter fun p => decide (p.2.length = w)).map entryMS
      = (m.map entryMS).filter fun q => decide (Multiset.card q.2 = w) := by
  rw [List.filter_map]
  congr 1

theorem filter_notworst_entryMS (m : VMap C) (w : Nat) :
    (m.filter fun p => !(decide (p.2.length = w))).map entryMS
      = (m.map entryMS).filter fun q => !(decide (Multiset.card q.2 = w)) := by
  rw [List.filter_map]
  congr 1

theorem coe_flatten_values (w : VMap C) :
    (↑((w.map Prod.snd).flatten) : Multiset (List C))
      = ((w.map entryMS).map fun q => q.2).sum := by
  induction w with
  | nil => rfl
  | cons p w ih =>
    show (↑(p.2 ++ (w.map Prod.snd).flatten) : Multiset (List C)) = _
    rw [← Multiset.coe_add, ih]
    simp [entryMS]

theorem flatten_values_perm {w₁ w₂ : VMap C}
    (h : (w₁.map entryMS).Perm (w₂.map entryMS)) :
    ((w₁.map Prod.snd).flatten).Perm ((w₂.map Prod.snd).flatten) := by
  rw [← Multiset.coe_eq_coe, coe_flatten_values, coe_flatten_values]
  exact List.Perm.sum_eq (h.map _)

theorem eliminateWorst_mapEquiv {m₁ m₂ : VMap C} (h : MapEquiv m₁ m₂)
    (w : Nat) : MapEquiv (eliminateWorst m₁ w) (eliminateWorst m₂ w) := by
  rw [eliminateWorst_eq, eliminateWorst_eq]
  apply redistributeAll_congr
  · show ((m₁.filter fun p => !(decide (p.2.length = w))).map entryMS).Perm
        ((m₂.filter fun p => !(decide (p.2.length = w))).map entryMS)
    rw [filter_notworst_entryMS, filter_notworst_entryMS]
    exact h.filter _
  · apply flatten_values_perm
    rw [filter_worst_entryMS, filter_worst_entryMS]
    exact h.filter _

theorem findWinnersAux_mapEquiv :
    ∀ (fuel : Nat) {m₁ m₂ : VMap C}, MapEquiv m₁ m₂ →
      optionPerm (findWinnersAux fuel m₁) (findWinnersAux fuel m₂) := by
  intro fuel
  induction fuel with
  | zero => intro m₁ m₂ _; exact trivial
  | succ fuel ih =>
    intro m₁ m₂ h
    have hvc := mapEquiv_votecounts h
    have hmax : (votecounts m₁).max? = (votecounts m₂).max? := perm_max? hvc
    have hmin : (votecounts m₁).min? = (votecounts m₂).min? := perm_min? hvc
    have hsum : (votecounts m₁).sum = (votecounts m₂).sum := hvc.sum_eq
    cases h1 : (votecounts m₁).max? with
    | none =>
      have h2 : (votecounts m₂).max? = none := by rw [← hmax]; exact h1
      rw [empty_round fuel m₁ h1, empty_round fuel m₂ h2]
      exact List.Perm.refl []
    | some b =>
      obtain ⟨w, hmin₁⟩ := minmax_align h1
      have h2 : (votecounts m₂).max? = some b := by rw [← hmax]; exact h1
      have hmin₂ : (votecounts m₂).min? = some w := by rw [← hmin]; exact hmin₁
      by_cases hmaj : (votecounts m₁).sum / 2 < b
      · obtain ⟨p, hp, he₁⟩ := majority_round fuel m₁ b w h1 hmin₁ hmaj
        obtain ⟨q, hq, he₂⟩ :=
          majority_round fuel m₂ b w h2 hmin₂ (by rw [← hsum]; exact hmaj)
        rw [he₁, he₂]
        have hfp : ((m₁.filter fun r => decide (r.2.length = b)).map entryMS).Perm
            ((m₂.filter fun r => decide (r.2.length = b)).map entryMS) := by
          rw [filter_worst_entryMS, filter_worst_entryMS]
          exact h.filter _
        rw [hp, hq] at hfp
        simp only [List.map_cons, List.map_nil] at hfp
        rw [List.perm_singleton] at hfp
        simp only [List.cons.injEq, and_true] at hfp
        have h3 : p.1 = q.1 := by
          have := congrArg Prod.fst hfp
          simpa [entryMS] using this
        show ([p.1] : List C).Perm [q.1]
        rw [h3]
      · by_cases htie : b = w
        · rw [full_tie_general fuel m₁ b w h1 hmin₁ htie,
            full_tie_general fuel m₂ b w h2 hmin₂ htie]
          show (m₁.map Prod.fst).Perm (m₂.map Prod.fst)
          exact mapEquiv_keys h
        · rw [continue_round fuel m₁ b w h1 hmin₁ hmaj htie,
            continue_round fuel m₂ b w h2 hmin₂ (by rw [← hsum]; exact hmaj) htie]
          exact ih (eliminateWorst_mapEquiv h w)

theorem addVoter_mapEquiv {m₁ m₂ : VMap C} (h : MapEquiv m₁ m₂) (c : C)
    (r : List C) : MapEquiv (addVoter m₁ c r) (addVoter m₂ c r) := by
  have hk : hasKey m₁ c = hasKey m₂ c := by
    rw [hasKey_eq, hasKey_eq]
    exact decide_eq_decide.2 (mapEquiv_keys h).mem_iff
  rw [addVoter, addVoter, ← hk]
  by_cases hkey : hasKey m₁ c = true
  · rw [if_pos hkey, if_pos hkey]
    exact pushVoter_mapEquiv h c r
  · rw [if_neg hkey, if_neg hkey]
    show ((m₁ ++ [(c, [r])]).map entryMS).Perm _
    rw [List.map_append, List.map_append]
    exact List.Perm.append_right _ h

theorem pushVoter_append (m m' : VMap C) (t : C) (r : List C) :
    pushVoter (m ++ m') t r = pushVoter m t r ++ pushVoter m' t r := by
  simp [pushVoter]

theorem hasKey_append (m m' : VMap C) (t : C) :
    hasKey (m ++ m') t = (hasKey m t || hasKey m' t) := by
  rw [hasKey_eq, hasKey_eq, hasKey_eq, List.map_append]
  by_cases h : t ∈ m.map Prod.fst <;> by_cases h' : t ∈ m'.map Prod.fst <;>
    simp [h, h']

theorem hasKey_false {m : VMap C} {t : C} (h : ¬(hasKey m t = true)) :
    hasKey m t = false := by
  cases hb : hasKey m t
  · rfl
  · exact absurd hb h

theorem initStep_swap (m : VMap C) (b₁ b₂ : List C) :
    MapEquiv (initStep (initStep m b₁) b₂) (initStep (initStep m b₂) b₁) := by
  rcases b₁ with _ | ⟨c₁, r₁⟩
  · exact mapEquiv_refl _
  rcases b₂ with _ | ⟨c₂, r₂⟩
  · exact mapEquiv_refl _
  show MapEquiv (addVoter (addVoter m c₁ r₁) c₂ r₂)
      (addVoter (addVoter m c₂ r₂) c₁ r₁)
  by_cases hk₁ : hasKey m c₁ = true <;> by_cases hk₂ : hasKey m c₂ = true
  · -- both keys already present: two pushes commute up to value reordering
    have e₁ : addVoter m c₁ r₁ = pushVoter m c₁ r₁ := by rw [addVoter, if_pos hk₁]
    have e₂ : addVoter m c₂ r₂ = pushVoter m c₂ r₂ := by rw [addVoter, if_pos hk₂]
    have hk₁' : hasKey (pushVoter m c₂ r₂) c₁ = true := by
      rw [hasKey_eq, pushVoter_keys, ← hasKey_eq]; exact hk₁
    have hk₂' : hasKey (pushVoter m c₁ r₁) c₂ = true := by
      rw [hasKey_eq, pushVoter_keys, ← hasKey_eq]; exact hk₂
    have eL : addVoter (pushVoter m c₁ r₁) c₂ r₂ = pushVoter (pushVoter m c₁ r₁) c₂ r₂ := by
      rw [addVoter, if_pos hk₂']
    have eR : addVoter (pushVoter m c₂ r₂) c₁ r₁ = pushVoter (pushVoter m c₂ r₂) c₁ r₁ := by
      rw [addVoter, if_pos hk₁']
    rw [e₁, e₂, eL, eR]
    show ((pushVoter (pushVoter m c₁ r₁) c₂ r₂).map entryMS).Perm _
    rw [pushVoter_comm]
  · -- c₁ present, c₂ fresh: the two operations commute exactly
    have hne : ¬(c₁ = c₂) := fun he => hk₂ (he ▸ hk₁)
    have e₁ : addVoter m c₁ r₁ = pushVoter m c₁ r₁ := by rw [addVoter, if_pos hk₁]
    have hk₂' : ¬(hasKey (pushVoter m c₁ r₁) c₂ = true) := by
      rw [hasKey_eq, pushVoter_keys, ← hasKey_eq]; exact hk₂
    have hk₁'' : hasKey (m ++ [(c₂, [r₂])]) c₁ = true := by
      rw [hasKey_append, hk₁]; rfl
    have eS : pushVoter [(c₂, [r₂])] c₁ r₁ = [(c₂, [r₂])] := by
      have h2 : ¬(c₂ = c₁) := fun he => hne he.symm
      simp [pushVoter, h2]
    have eR1 : addVoter m c₂ r₂ = m ++ [(c₂, [r₂])] := by rw [addVoter, if_neg hk₂]
    have eL : addVoter (pushVoter m c₁ r₁) c₂ r₂ = pushVoter m c₁ r₁ ++ [(c₂, [r₂])] := by
      rw [addVoter, if_neg hk₂']
    have eR2 : addVoter (m ++ [(c₂, [r₂])]) c₁ r₁
        = pushVoter m c₁ r₁ ++ [(c₂, [r₂])] := by
      rw [addVoter, if_pos hk₁'', pushVoter_append, eS]
    rw [e₁, eL, eR1, eR2]
    exact mapEquiv_refl _
  · -- symmetric: c₂ present, c₁ fresh
    have hne : ¬(c₂ = c₁) := fun he => hk₁ (he ▸ hk₂)
    have e₂ : addVoter m c₂ r₂ = pushVoter m c₂ r₂ := by rw [addVoter, if_pos hk₂]
    have hk₁' : ¬(hasKey (pushVoter m c₂ r₂) c₁ = true) := by
      rw [hasKey_eq, pushVoter_keys, ← hasKey_eq]; exact hk₁
    have hk₂'' : hasKey (m ++ [(c₁, [r₁])]) c₂ = true := by
      rw [hasKey_append, hk₂]; rfl
    have eS : pushVoter [(c₁, [r₁])] c₂ r₂ = [(c₁, [r₁])] := by
      have h2 : ¬(c₁ = c₂) := fun he => hne he.symm
      simp [pushVoter, h2]
    have eL1 : addVoter m c₁ r₁ = m ++ [(c₁, [r₁])] := by rw [addVoter, if_neg hk₁]
    have eR : addVoter (pushVoter m c₂ r₂) c₁ r₁ = pushVoter m c₂ r₂ ++ [(c₁, [r₁])] := by
      rw [addVoter, if_neg hk₁']
    have eL2 : addVoter (m ++ [(c₁, [r₁])]) c₂ r₂
        = pushVoter m c₂ r₂ ++ [(c₁, [r₁])] := by
      rw [addVoter, if_pos hk₂'', pushVoter_append, eS]
    rw [e₂, eL1, eL2, eR]
    exact mapEquiv_refl _
  · by_cases hcc : c₁ = c₂
    · -- same fresh key added twice: the two records end in one entry,
      -- in either order
      subst hcc
      have e₁ : addVoter m c₁ r₁ = m ++ [(c₁, [r₁])] := by rw [addVoter, if_neg hk₁]
      have e₂ : addVoter m c₁ r₂ = m ++ [(c₁, [r₂])] := by rw [addVoter, if_neg hk₁]
      have hkk : ∀ s : List C, hasKey (m ++ [(c₁, [s])] : VMap C) c₁ = true := by
        intro s
        rw [hasKey_append, hasKey_false hk₁]
        simp [hasKey]
      have hnm : c₁ ∉ m.map Prod.fst := by
        rw [hasKey_eq] at hk₁
        simpa using hk₁
      have epush : ∀ s s' : List C,
          pushVoter (m ++ [(c₁, [s])]) c₁ s' = m ++ [(c₁, [s, s'])] := by
        intro s s'
        rw [pushVoter_append, pushVoter_not_mem s' hnm]
        simp [pushVoter]
      have eL : addVoter (m ++ [(c₁, [r₁])]) c₁ r₂ = m ++ [(c₁, [r₁, r₂])] := by
        rw [addVoter, if_pos (hkk r₁), epush]
      have eR : addVoter (m ++ [(c₁, [r₂])]) c₁ r₁ = m ++ [(c₁, [r₂, r₁])] := by
        rw [addVoter, if_pos (hkk r₂), epush]
      rw [e₁, e₂, eL, eR]
      show ((m ++ [(c₁, [r₁, r₂])]).map entryMS).Perm _
      rw [List.map_append, List.map_append]
      apply List.Perm.append_left
      have hms : (↑([r₁, r₂] : List (List C)) : Multiset (List C)) = ↑[r₂, r₁] :=
        Multiset.coe_eq_coe.2 (List.Perm.swap r₂ r₁ [])
      simp [entryMS, hms]
    · -- two distinct fresh keys: appended in either order
      have hk₂' : ¬(hasKey (m ++ [(c₁, [r₁])] : VMap C) c₂ = true) := by
        rw [hasKey_append, hasKey_false hk₂]
        simp [hasKey]
        exact hcc
      have hk₁' : ¬(hasKey (m ++ [(c₂, [r₂])] : VMap C) c₁ = true) := by
        rw [hasKey_append, hasKey_false hk₁]
        simp [hasKey]
        exact fun he => hcc he.symm
      have e₁ : addVoter m c₁ r₁ = m ++ [(c₁, [r₁])] := by rw [addVoter, if_neg hk₁]
      have e₂ : addVoter m c₂ r₂ = m ++ [(c₂, [r₂])] := by rw [addVoter, if_neg hk₂]
      have eL : addVoter (m ++ [(c₁, [r₁])]) c₂ r₂
          = (m ++ [(c₁, [r₁])]) ++ [(c₂, [r₂])] := by
        rw [addVoter, if_neg hk₂']
      have eR : addVoter (m ++ [(c₂, [r₂])]) c₁ r₁
          = (m ++ [(c₂, [r₂])]) ++ [(c₁, [r₁])] := by
        rw [addVoter, if_neg hk₁']
      rw [e₁, e₂, eL, eR]
      show (((m ++ [(c₁, [r₁])]) ++ [(c₂, [r₂])]).map entryMS).Perm _
      simp only [List.append_assoc, List.map_append, List.map_cons, List.map_nil,
        List.singleton_append]
      apply List.Perm.append_left
      exact List.Perm.swap _ _ []

theorem initFold_mapEquiv :
    ∀ (bs : List (List C)) {m₁ m₂ : VMap C}, MapEquiv m₁ m₂ →
      MapEquiv (bs.foldl initStep m₁) (bs.foldl initStep m₂) := by
  intro bs
  induction bs with
  | nil => intro m₁ m₂ h; exact h
  | cons b bs ih =>
    intro m₁ m₂ h
    rw [List.foldl_cons, List.foldl_cons]
    apply ih
    rcases b with _ | ⟨c, r⟩
    · exact h
    · exact addVoter_mapEquiv h c r

theorem initFold_perm {bs₁ bs₂ : List (List C)} (h : bs₁.Perm bs₂) :
    ∀ m : VMap C, MapEquiv (bs₁.foldl initStep m) (bs₂.foldl initStep m) := by
  induction h with
  | nil => intro m; exact mapEquiv_refl _
  | cons b hbs ih =>
    intro m
    rw [List.foldl_cons, List.foldl_cons]
    exact ih _
  | swap b₁ b₂ l =>
    intro m
    rw [List.foldl_cons, List.foldl_cons, List.foldl_cons, List.foldl_cons]
    exact initFold_mapEquiv l (initStep_swap m _ _)
  | trans h₁ h₂ ih₁ ih₂ => intro m; exact List.Perm.trans (ih₁ m) (ih₂ m)

theorem initMap_eq (bs : List (List C)) : initMap bs = bs.foldl initStep [] := by
  have key : ∀ m : VMap C,
      bs.foldl
        (fun m b =>
          match b with
          | [] => m
          | c :: rest => addVoter m c rest)
        m = bs.foldl initStep m := by
    induction bs with
    | nil => intro m; rfl
    | cons b bs ih =>
      intro m
      rw [List.foldl_cons, List.foldl_cons]
      exact ih _
  exact key []

theorem initMap_perm {bs₁ bs₂ : List (List C)} (h : bs₁.Perm bs₂) :
    MapEquiv (initMap bs₁) (initMap bs₂) := by
  rw [initMap_eq, initMap_eq]
  exact initFold_perm h []

/-- C5: permutation invariance — permuting the ballot collection yields the
same winners up to order (both runs succeed or both panic, and on success the
winner lists are permutations of each other). -/
theorem find_winners_perm {bs₁ bs₂ : List (List C)} (h : bs₁.Perm bs₂) :
    optionPerm (find_winners bs₁) (find_winners bs₂) := by
  have hm : MapEquiv (initMap bs₁) (initMap bs₂) := initMap_perm h
  have hlen : (initMap bs₁).length = (initMap bs₂).length := mapEquiv_length hm
  show optionPerm (findWinnersAux ((initMap bs₁).length + 1) (initMap bs₁))
      (findWinnersAux ((initMap bs₂).length + 1) (initMap bs₂))
  rw [hlen]
  exact findWinnersAux_mapEquiv _ hm

theorem find_winners_perm_witness :
    ([[2, 1], [0], [0], [1]] : List (List Nat)).Perm [[0], [1], [0], [2, 1]] ∧
    optionPerm (find_winners ([[2, 1], [0], [0], [1]] : List (List Nat)))
      (find_winners ([[0], [1], [0], [2, 1]] : List (List Nat))) :=
  ⟨by decide, find_winners_perm (by decide)⟩

/-- C8: redistribution processes every voter record of the drained worst
candidates exactly once: the new map is the retained map with, appended to
each surviving candidate, precisely the records whose first still-active
entry is that candidate (earlier entries — eliminated this or any prior
round — are skipped); records with no surviving entry land nowhere, and the
next round's `total_votecount` grows only by the count of records that found
a still-active candidate. -/
theorem redistribution_exact :
    (∀ (m : VMap C) (w : Nat),
        eliminateWorst m w
          = redistributeAll (m.filter fun p => !(decide (p.2.length = w)))
              (((m.filter fun p => decide (p.2.length = w)).map Prod.snd).flatten)) ∧
    (∀ (m : VMap C) (bs : List (List C)),
        redistributeAll m bs
          = m.map fun p => (p.1, p.2 ++ bs.filterMap (landedAt (m.map Prod.fst) p.1))) ∧
    (∀ (m : VMap C) (bs : List (List C)), (m.map Prod.fst).Nodup →
        (votecounts (redistributeAll m bs)).sum
          = (votecounts m).sum
            + bs.countP fun b => (nextActive (m.map Prod.fst) b).isSome) :=
  ⟨eliminateWorst_eq, fun m bs => redistributeAll_eq bs m,
    fun m bs h => redistributeAll_sum bs m h⟩

theorem redistribution_exact_witness :
    (eliminateWorst ([(0, [[], []]), (1, [[]]), (2, [[1]])] : VMap Nat) 1
      = redistributeAll (([(0, [[], []]), (1, [[]]), (2, [[1]])] : VMap Nat).filter
            fun p => !(decide (p.2.length = 1)))
          (((([(0, [[], []]), (1, [[]]), (2, [[1]])] : VMap Nat).filter
            fun p => decide (p.2.length = 1)).map Prod.snd).flatten)) ∧
    (redistributeAll ([(0, [[]]), (1, [])] : VMap Nat) [[2, 1], [3]]
      = ([(0, [[]]), (1, [])] : VMap Nat).map fun p =>
          (p.1, p.2 ++ ([[2, 1], [3]] : List (List Nat)).filterMap
            (landedAt (([(0, [[]]), (1, [])] : VMap Nat).map Prod.fst) p.1))) ∧
    ((([(0, [[]]), (1, [])] : VMap Nat).map Prod.fst).Nodup) ∧
    ((votecounts (redistributeAll ([(0, [[]]), (1, [])] : VMap Nat) [[2, 1], [3]])).sum
      = (votecounts ([(0, [[]]), (1, [])] : VMap Nat)).sum
        + ([[2, 1], [3]] : List (List Nat)).countP
            fun b => (nextActive (([(0, [[]]), (1, [])] : VMap Nat).map Prod.fst) b).isSome) :=
  ⟨redistribution_exact.1 _ 1, redistribution_exact.2.1 _ _, by decide,
    redistribution_exact.2.2 ([(0, [[]]), (1, [])] : VMap Nat) [[2, 1], [3]] (by decide)⟩

/-- C6: whenever `best_votecount = worst_votecount` (including a single
remaining candidate), the round returns exactly the currently active
candidates; concretely `[[0],[0],[1],[1]]` yields the tie `{0,1}`. -/
theorem full_tie_returns_all :
    (∀ (fuel : Nat) (m : VMap C) (b w : Nat),
        (votecounts m).max? = some b → (votecounts m).min? = some w → b = w →
        findWinnersAux (fuel + 1) m = some (m.map Prod.fst)) ∧
    find_winners ([[0], [0], [1], [1]] : List (List Nat)) = some [0, 1] :=
  ⟨full_tie_general, by decide⟩

theorem full_tie_returns_all_witness :
    (votecounts ([(0, [[]])] : VMap Nat)).max? = some 1 ∧
    (votecounts ([(0, [[]])] : VMap Nat)).min? = some 1 ∧
    findWinnersAux 1 ([(0, [[]])] : VMap Nat)
      = some (([(0, [[]])] : VMap Nat).map Prod.fst) :=
  ⟨by decide, by decide,
    full_tie_returns_all.1 0 ([(0, [[]])] : VMap Nat) 1 1 (by decide) (by decide) rfl⟩

/-- C1: a candidate with exactly half the votes does not trigger the majority
branch — the round only returns a majority winner when
`best_votecount > total_votecount / 2`, otherwise (absent a full tie) it
continues into elimination.  Concretely, on `[[0],[0],[0],[1],[1],[2,1]]`
round one has best count 3 of total 6 (exactly half), candidate 2 is
eliminated, and the final result is the tie `{0,1}`, not `[0]`. -/
theorem exact_half_not_majority :
    (∀ (fuel : Nat) (m : VMap C) (b w : Nat),
        (votecounts m).max? = some b → (votecounts m).min? = some w →
        ¬((votecounts m).sum / 2 < b) → b ≠ w →
        findWinnersAux (fuel + 1) m = findWinnersAux fuel (eliminateWorst m w)) ∧
    (votecounts (initMap ([[0], [0], [0], [1], [1], [2, 1]] : List (List Nat)))).max?
      = some 3 ∧
    (votecounts (initMap ([[0], [0], [0], [1], [1], [2, 1]] : List (List Nat)))).sum
      = 6 ∧
    hasKey (eliminateWorst
        (initMap ([[0], [0], [0], [1], [1], [2, 1]] : List (List Nat))) 1) 2
      = false ∧
    find_winners ([[0], [0], [0], [1], [1], [2, 1]] : List (List Nat))
      = some [0, 1] ∧
    find_winners ([[0], [0], [0], [1], [1], [2, 1]] : List (List Nat))
      ≠ some [0] :=
  ⟨continue_round, by decide, by decide, by decide, by decide, by decide⟩

theorem exact_half_not_majority_witness :
    ((votecounts (initMap ([[0], [0], [0], [1], [1], [2, 1]] : List (List Nat)))).max?
        = some 3 ∧
      (votecounts (initMap ([[0], [0], [0], [1], [1], [2, 1]] : List (List Nat)))).min?
        = some 1 ∧
      ¬((votecounts (initMap ([[0], [0], [0], [1], [1], [2, 1]] : List (List Nat)))).sum / 2 < 3) ∧
      (3 : Nat) ≠ 1) ∧
    findWinnersAux 3 (initMap ([[0], [0], [0], [1], [1], [2, 1]] : List (List Nat)))
      = findWinnersAux 2 (eliminateWorst
          (initMap ([[0], [0], [0], [1], [1], [2, 1]] : List (List Nat))) 1) :=
  ⟨⟨by decide, by decide, by decide, by decide⟩,
    exact_half_not_majority.1 2
      (initMap ([[0], [0], [0], [1], [1], [2, 1]] : List (List Nat))) 3 1
      (by decide) (by decide) (by decide) (by decide)⟩

/-- C2: the result of `find_winners` is empty, a single candidate, or two or
more candidates; in the last case the winner list is exactly the key list of
the voter map of the terminating round (`finalMap`, the same recursion as the
loop), and every entry of that map holds the same vote count. -/
theorem find_winners_shape (ballots : List (List C)) (l : List C)
    (h : find_winners ballots = some l) :
    l = [] ∨ (∃ c, l = [c]) ∨
      (2 ≤ l.length ∧
        l = (finalMap ((initMap ballots).length + 1) (initMap ballots)).map Prod.fst ∧
        ∃ v : Nat, ∀ p ∈ finalMap ((initMap ballots).length + 1) (initMap ballots),
          p.2.length = v) :=
  findWinnersAux_shape _ _ _ h

theorem find_winners_shape_witness :
    find_winners ([[0], [0], [1], [1]] : List (List Nat)) = some [0, 1] ∧
    (([0, 1] : List Nat) = [] ∨ (∃ c, ([0, 1] : List Nat) = [c]) ∨
      (2 ≤ ([0, 1] : List Nat).length ∧
        [0, 1] = (finalMap
            ((initMap ([[0], [0], [1], [1]] : List (List Nat))).length + 1)
            (initMap ([[0], [0], [1], [1]] : List (List Nat)))).map Prod.fst ∧
        ∃ v : Nat, ∀ p ∈ finalMap
            ((initMap ([[0], [0], [1], [1]] : List (List Nat))).length + 1)
            (initMap ([[0], [0], [1], [1]] : List (List Nat))),
          p.2.length = v)) :=
  ⟨by decide, find_winners_shape ([[0], [0], [1], [1]] : List (List Nat)) [0, 1] (by decide)⟩

/-- C10: the active-candidate set never grows: winners were first on some
ballot (so a candidate with no first-choice votes never wins, even if every
redistributed ballot names it), and redistribution never adds a key to the
map. -/
theorem winners_ranked_first :
    (∀ (bs : List (List C)) (l : List C), find_winners bs = some l →
        ∀ c ∈ l, ∃ b ∈ bs, b.head? = some c) ∧
    (∀ (m : VMap C) (b : List C), (redistribute m b).map Prod.fst = m.map Prod.fst) := by
  refine ⟨fun bs l h c hc => ?_, redistribute_keys⟩
  exact initMap_keys_from_heads (findWinnersAux_winners_mem _ _ _ h c hc)

theorem winners_ranked_first_witness :
    find_winners ([[0], [0], [1]] : List (List Nat)) = some [0] ∧
    (0 : Nat) ∈ ([0] : List Nat) ∧
    (∃ b ∈ ([[0], [0], [1]] : List (List Nat)), b.head? = some 0) ∧
    (redistribute ([(5, [[]])] : VMap Nat) [3, 5, 2]).map Prod.fst
      = ([(5, [[]])] : VMap Nat).map Prod.fst :=
  ⟨by decide, by decide,
    winners_ranked_first.1 ([[0], [0], [1]] : List (List Nat)) [0] (by decide) 0 (by decide),
    winners_ranked_first.2 ([(5, [[]])] : VMap Nat) [3, 5, 2]⟩

/-- C7: a candidate appearing only in non-first positions never wins: on
`[[0,4],[0,4],[1,4],[2,4],[3,4]]` the winners are exactly `[0]`, and
candidate 4 (no first-round votes) is absent. -/
theorem first_round_absentee_example :
    find_winners ([[0, 4], [0, 4], [1, 4], [2, 4], [3, 4]] : List (List Nat))
      = some [0] := by
  decide

end RCIR
